import Mathlib

/-!
Verification of the nmatch token-alignment engine (src/nmatch_cpp.cpp).

Strings are modelled as `List Char`, C++ `int` values holding lengths,
counts and distances as `Nat` (they are always non-negative in the source),
R's `NA_INTEGER` as `Option.none`, and `Rcpp::stop` as `Except.error`.
-/

/-- Delimiter test of `tokenize_name`: space, tab, newline, carriage
return, hyphen or underscore (nmatch_cpp.cpp line 17). -/
def isDelim (c : Char) : Bool :=
  c = ' ' || c = '\t' || c = '\n' || c = '\r' || c = '-' || c = '_'

/-- Loop of `tokenize_name` (nmatch_cpp.cpp lines 15-32): `cur` is
`current_token`; on a delimiter the current token is emitted when it is
non-empty and long enough, any other character is appended to it; the
trailing token is checked the same way when the input ends. -/
def tokenizeGo (nm : Nat) : List Char → List Char → List (List Char)
  | [], cur => if cur ≠ [] ∧ nm ≤ cur.length then [cur] else []
  | c :: rest, cur =>
    if isDelim c then
      (if cur ≠ [] ∧ nm ≤ cur.length then [cur] else []) ++ tokenizeGo nm rest []
    else
      tokenizeGo nm rest (cur ++ [c])

/-- C++ `tokenize_name(name, nchar_min)` (nmatch_cpp.cpp lines 11-35). -/
def tokenize_name (name : List Char) (nm : Nat) : List (List Char) :=
  tokenizeGo nm name []

/-- Cell recurrence of the OSA dynamic program computed by
`osa_distance` (nmatch_cpp.cpp lines 40-83).  `osaF s1 s2 fuel i j` is the
value the C++ code stores for matrix cell `(i, j)`: row 0 and column 0 are
`j` resp. `i`; an inner cell is the minimum of deletion `d(i-1,j)+1`,
insertion `d(i,j-1)+1` and substitution `d(i-1,j-1)+cost`, additionally
compared with the transposition value `d(i-2,j-2)+cost` when `i,j ≥ 2` and
the two last characters are swapped (lines 71-74).  The rolling rows
`prev_prev_row`, `prev_row`, `curr_row` of the C++ code hold rows
`i-2`, `i-1`, `i` of exactly this matrix.  `fuel` only bounds the
recursion depth; it is at least `i + j` at every real use. -/
def osaF (s1 s2 : List Char) : Nat → Nat → Nat → Nat
  | _, 0, j => j
  | _, i+1, 0 => i+1
  | 0, _+1, _+1 => 0
  | fuel+1, i+1, j+1 =>
    if 1 ≤ i ∧ 1 ≤ j ∧ s1.getD i ' ' = s2.getD (j-1) ' ' ∧ s1.getD (i-1) ' ' = s2.getD j ' '
    then
      min (min (osaF s1 s2 fuel i (j+1) + 1)
            (min (osaF s1 s2 fuel (i+1) j + 1)
              (osaF s1 s2 fuel i j + (if s1.getD i ' ' = s2.getD j ' ' then 0 else 1))))
        (osaF s1 s2 fuel (i-1) (j-1) + (if s1.getD i ' ' = s2.getD j ' ' then 0 else 1))
    else
      min (osaF s1 s2 fuel i (j+1) + 1)
        (min (osaF s1 s2 fuel (i+1) j + 1)
          (osaF s1 s2 fuel i j + (if s1.getD i ' ' = s2.getD j ' ' then 0 else 1)))

/-- C++ `osa_distance(s1, s2)` (nmatch_cpp.cpp lines 40-83): the value of
cell `(m, n)` of the OSA matrix, `m`, `n` the string lengths.  The early
returns for an empty argument (lines 44-45) coincide with the base rows of
the matrix. -/
def osa_distance (s1 s2 : List Char) : Nat :=
  osaF s1 s2 (s1.length + s2.length) s1.length s2.length

/-- Modelled from the spec: the repository's Levenshtein calculator is not
under src/ (it lives on the R side); the spec describes the standard
dynamic program over insert/delete/substitute, each cost 1, 0 for matching
characters, with rolling rows.  Same matrix recurrence as `osaF` without
the transposition case. -/
def levF (s1 s2 : List Char) : Nat → Nat → Nat → Nat
  | _, 0, j => j
  | _, i+1, 0 => i+1
  | 0, _+1, _+1 => 0
  | fuel+1, i+1, j+1 =>
    min (levF s1 s2 fuel i (j+1) + 1)
      (min (levF s1 s2 fuel (i+1) j + 1)
        (levF s1 s2 fuel i j + (if s1.getD i ' ' = s2.getD j ' ' then 0 else 1)))

/-- Modelled from the spec: Levenshtein distance of two token texts (the
value of cell `(m, n)` of the Levenshtein matrix). -/
def levenshtein_distance (s1 s2 : List Char) : Nat :=
  levF s1 s2 (s1.length + s2.length) s1.length s2.length

/-- C++ `match_eval_token_cpp(nchar_x, nchar_y, dist)`
(nmatch_cpp.cpp lines 87-96). -/
def match_eval_token_cpp (nchar_x nchar_y dist : Nat) : Bool :=
  let nchar_max := max nchar_x nchar_y
  (nchar_max ≤ 3 && dist = 0) ||
  (nchar_max = 4 && dist ≤ 1) ||
  (5 ≤ nchar_max && nchar_max ≤ 8 && dist ≤ 2) ||
  (9 ≤ nchar_max && dist ≤ 3)

/-- C++ `INT_MAX`, the initial value of `min_distance`
(nmatch_cpp.cpp line 161). -/
def INT_MAX : Nat := 2147483647

/-- Inner loop of the permutation search (nmatch_cpp.cpp lines 172-176 and
202-206): accumulate the token distances `ds` into `acc`, stopping as soon
as the partial sum fails `distance < min_distance` (the branch-and-bound
pruning). -/
def pruneSumAux (md : Nat) : List Nat → Nat → Nat
  | [], acc => acc
  | d :: rest, acc => if acc < md then pruneSumAux md rest (acc + d) else acc

/-- Total distance of the candidate permutation `p`: the sum, over the
first `m` positions, of the token distance `d j (p j)`. -/
def permScore (d : Nat → Nat → Nat) (m : Nat) (p : List Nat) : Nat :=
  ((List.range m).map fun j => d j (p.getD j 0)).sum

/-- Aligned token pairs stored for the candidate permutation `p`
(`best_tokens_x`, `best_tokens_y`, `best_distances` of nmatch_cpp.cpp
lines 180-188 and 210-218), as a list of triples
(x-side token, y-side token, distance). -/
def permPairs (d : Nat → Nat → Nat) (pr : Nat → Nat → List Char × List Char) (m : Nat)
    (p : List Nat) : List (List Char × List Char × Nat) :=
  (List.range m).map fun j => ((pr j (p.getD j 0)).1, (pr j (p.getD j 0)).2, d j (p.getD j 0))

/-- The `do { ... } while (std::next_permutation(...))` search
(nmatch_cpp.cpp lines 168-192 and 198-222): for each candidate
permutation, compute its (pruned) distance; on a strictly smaller total,
record it together with its aligned pairs and stop the whole search when
the total is 0. -/
def searchLoop (d : Nat → Nat → Nat) (pr : Nat → Nat → List Char × List Char) (m : Nat) :
    List (List Nat) → Nat → List (List Char × List Char × Nat) →
      Nat × List (List Char × List Char × Nat)
  | [], md, best => (md, best)
  | p :: rest, md, best =>
    let dist := pruneSumAux md ((List.range m).map fun j => d j (p.getD j 0)) 0
    if dist < md then
      if dist = 0 then (dist, permPairs d pr m p)
      else searchLoop d pr m rest dist (permPairs d pr m p)
    else searchLoop d pr m rest md best

/-- Ways to pick one element out of a list, in order: `selects l` lists the
pairs (picked element, remaining list). -/
def selects {α : Type} : List α → List (α × List α)
  | [] => []
  | a :: as => (a, as) :: (selects as).map fun p => (p.1, a :: p.2)

/-- All permutations of `l`, enumerated by first element in list order and
recursively on the rest; `n` is recursion fuel, equal to `l.length` at
every real use. -/
def permsAux {α : Type} : Nat → List α → List (List α)
  | 0, _ => [[]]
  | n+1, l => (selects l).flatMap fun p => (permsAux n p.2).map fun q => p.1 :: q

/-- All permutations of `l` in the order `std::next_permutation` visits
them when started from a sorted list (lexicographic order when `l` is
sorted without duplicates), modelling the
`std::iota; do { ... } while (std::next_permutation(...))` pattern of
nmatch_cpp.cpp lines 165-166, 192, 195-196, 222. -/
def permsLex {α : Type} (l : List α) : List (List α) :=
  permsAux l.length l

/-- The shorter of the two token sequences (the one of length
`min(k_x, k_y)`; `a` on ties, as in the `k_x <= k_y` branch of the
source). -/
def shorterOf {α : Type} (a b : List α) : List α :=
  if a.length ≤ b.length then a else b

/-- The longer of the two token sequences (the permuted one; `b` on
ties). -/
def longerOf {α : Type} (a b : List α) : List α :=
  if a.length ≤ b.length then b else a

/-- Token distance used by the search: in the `k_x <= k_y` branch
(nmatch_cpp.cpp line 173) position `j` of `tokens_x` is compared with
permuted position `i` of `tokens_y`; in the other branch (line 203) the
roles are swapped. -/
def alignD (tx ty : List (List Char)) (j i : Nat) : Nat :=
  if tx.length ≤ ty.length then osa_distance (tx.getD j []) (ty.getD i [])
  else osa_distance (tx.getD i []) (ty.getD j [])

/-- Token pair stored for position `j` against permuted position `i`
(nmatch_cpp.cpp lines 185-186 resp. 215-216). -/
def alignPr (tx ty : List (List Char)) (j i : Nat) : List Char × List Char :=
  if tx.length ≤ ty.length then (tx.getD j [], ty.getD i [])
  else (tx.getD i [], ty.getD j [])

/-- The whole permutation search of nmatch_cpp.cpp lines 161-223: permute
the index set of the longer token sequence, starting from `min_distance =
INT_MAX` and an empty best-pair list; returns the final `min_distance`
together with `best_tokens_x/best_tokens_y/best_distances`. -/
def alignBest (tx ty : List (List Char)) : Nat × List (List Char × List Char × Nat) :=
  searchLoop (alignD tx ty) (alignPr tx ty) (min tx.length ty.length)
    (permsLex (List.range (longerOf tx ty).length)) INT_MAX []

/-- One row of the output matrix of `nmatch_cpp_tfreq`
(nmatch_cpp.cpp lines 119 and 262-269); `none` is R's `NA_INTEGER`. -/
structure MatchRecord where
  k_x : Nat
  k_y : Nat
  k_align : Nat
  n_match : Nat
  dist_total : Nat
  freq1 : Option Int
  freq2 : Option Int
  freq3 : Option Int
deriving DecidableEq

/-- Frequency lookup for slot `idx` (nmatch_cpp.cpp lines 237-259): slots
start as `NA`; when the lookup table is in use and the best-pair list is
non-empty, slots `0 ≤ idx < min 3 (number of aligned pairs)` get the sum
of the two tokens' frequencies when both are in the table and stay `NA`
otherwise. -/
def computeFreqs (uf : Bool) (tm : List Char → Option Int)
    (best : List (List Char × List Char × Nat)) (idx : Nat) : Option Int :=
  if uf && !best.isEmpty then
    if idx < min 3 best.length then
      match tm (best.getD idx ([], [], 0)).1, tm (best.getD idx ([], [], 0)).2.1 with
      | some a, some b => some (a + b)
      | _, _ => none
    else none
  else none

/-- Freq slot `idx` (0, 1 or 2) of an output record. -/
def recFreq (r : MatchRecord) : Nat → Option Int
  | 0 => r.freq1
  | 1 => r.freq2
  | 2 => r.freq3
  | _ => none

/-- The `token_map` hash map built by nmatch_cpp.cpp lines 130-137:
`token_map[key] = value` for each key/value pair in order, so a later
occurrence of a key overwrites an earlier one. -/
def buildTokenMap (keys : List (List Char)) (vals : List Int) : List Char → Option Int :=
  (keys.zip vals).foldl (fun mp kv => fun q => if q = kv.1 then some kv.2 else mp q)
    (fun _ => none)

/-- The two `Rcpp::stop` failures of `nmatch_cpp_tfreq`
(nmatch_cpp.cpp lines 109-115). -/
inductive NmatchError where
  | LengthMismatch
  | VocabularyMismatch
deriving DecidableEq

/-- Per-pair body of the loop of `nmatch_cpp_tfreq`
(nmatch_cpp.cpp lines 140-269): tokenize both names; if either token list
is empty, report the sentinel distance 9999 with no matches and `NA`
frequencies; otherwise run the permutation search, count the aligned pairs
accepted by `match_eval_token_cpp` and fill the frequency slots. -/
def nmatchPair (uf : Bool) (tm : List Char → Option Int) (nm : Nat)
    (x y : List Char) : MatchRecord :=
  let tx := tokenize_name x nm
  let ty := tokenize_name y nm
  let m := min tx.length ty.length
  if tx.isEmpty || ty.isEmpty then
    ⟨tx.length, ty.length, m, 0, 9999, none, none, none⟩
  else
    let ab := alignBest tx ty
    let nMatch := ab.2.countP fun t => match_eval_token_cpp t.1.length t.2.1.length t.2.2
    ⟨tx.length, ty.length, m, nMatch, ab.1,
      computeFreqs uf tm ab.2 0, computeFreqs uf tm ab.2 1, computeFreqs uf tm ab.2 2⟩

/-- C++ `nmatch_cpp_tfreq(x, y, nchar_min, token, token_freq)`
(nmatch_cpp.cpp lines 101-273): fail fast when `x` and `y` differ in
length, then when `token` and `token_freq` differ in length; otherwise
build the token map once and process every pair. -/
def nmatch_cpp_tfreq (x y : List (List Char)) (nm : Nat)
    (token : List (List Char)) (token_freq : List Int) :
    Except NmatchError (List MatchRecord) :=
  if x.length ≠ y.length then .error .LengthMismatch
  else if token.length ≠ token_freq.length then .error .VocabularyMismatch
  else
    let tm := buildTokenMap token token_freq
    let uf := decide (0 < token.length)
    .ok ((x.zip y).map fun ab => nmatchPair uf tm nm ab.1 ab.2)

deriving instance DecidableEq for Except

/-- Emptying the accumulator on a pure-delimiter tail yields no tokens. -/
theorem tokenizeGo_all_delim (nm : Nat) :
    ∀ name : List Char, (∀ c ∈ name, isDelim c = true) → tokenizeGo nm name [] = [] := by
  intro name
  induction name with
  | nil => intro _; simp [tokenizeGo]
  | cons c rest ih =>
    intro h
    have hc : isDelim c = true := h c (by simp)
    simp only [tokenizeGo, hc, if_true]
    rw [ih fun c' hc' => h c' (by simp [hc'])]
    simp

/-- Claim C7 (amended): for every minimum-length threshold the tokenizer
returns an empty token sequence on the empty input string and on every
name consisting only of delimiter characters; it is a total function, so
it never raises an error.  (The original claim also promised an empty
sequence for names of non-letter, non-delimiter characters; see the
counterexample.) -/
theorem claim_C7 (nm : Nat) :
    tokenize_name [] nm = [] ∧
    ∀ name : List Char, (∀ c ∈ name, isDelim c = true) → tokenize_name name nm = [] := by
  constructor
  · simp [tokenize_name, tokenizeGo]
  · intro name h
    exact tokenizeGo_all_delim nm name h

/-- Claim C7 witness: concrete instances of both parts. -/
theorem claim_C7_witness :
    tokenize_name [] 5 = [] ∧ tokenize_name [' ', '\t', '-', '_'] 2 = [] :=
  ⟨(claim_C7 5).1, (claim_C7 2).2 [' ', '\t', '-', '_'] (by decide)⟩

/-- Claim C7 counterexample: a name made only of non-letter, non-delimiter
characters still produces a token, because `tokenize_name` treats every
non-delimiter character as token material (nmatch_cpp.cpp line 25). -/
theorem claim_C7_cex :
    (∀ c ∈ ['!', '!'], isDelim c = false ∧ ¬ c.isAlpha) ∧
    tokenize_name ['!', '!'] 2 = [['!', '!']] := by
  constructor
  · decide
  · decide

/-- Claim C2: the classifier returns true exactly on the four length-scaled
distance bands, and the five quoted examples hold. -/
theorem claim_C2 :
    (∀ lx ly d : Nat,
      match_eval_token_cpp lx ly d = true ↔
        ((max lx ly ≤ 3 ∧ d = 0) ∨ (max lx ly = 4 ∧ d ≤ 1) ∨
         (5 ≤ max lx ly ∧ max lx ly ≤ 8 ∧ d ≤ 2) ∨ (9 ≤ max lx ly ∧ d ≤ 3))) ∧
    match_eval_token_cpp 3 3 0 = true ∧ match_eval_token_cpp 3 3 1 = false ∧
    match_eval_token_cpp 6 6 2 = true ∧ match_eval_token_cpp 6 6 3 = false ∧
    match_eval_token_cpp 10 10 3 = true := by
  refine ⟨?_, by decide, by decide, by decide, by decide, by decide⟩
  intro lx ly d
  simp only [match_eval_token_cpp, Bool.or_eq_true, Bool.and_eq_true, decide_eq_true_eq]
  omega

/-- Claim C8: OSA counts an adjacent swap as one edit where Levenshtein
needs two. -/
theorem claim_C8 :
    osa_distance ['a', 'b'] ['b', 'a'] = 1 ∧
    levenshtein_distance ['a', 'b'] ['b', 'a'] = 2 := by
  constructor
  · decide
  · decide

/-- Claim C4: a pair in which either name tokenizes to nothing yields the
sentinel distance 9999, zero aligned pairs and zero matches, and a batch
call containing only that pair still succeeds. -/
theorem claim_C4 (uf : Bool) (tm : List Char → Option Int) (nm : Nat) (x y : List Char)
    (h : tokenize_name x nm = [] ∨ tokenize_name y nm = []) :
    (nmatchPair uf tm nm x y).dist_total = 9999 ∧
    (nmatchPair uf tm nm x y).k_align = 0 ∧
    (nmatchPair uf tm nm x y).n_match = 0 ∧
    (nmatchPair uf tm nm x y).freq1 = none ∧
    (nmatchPair uf tm nm x y).freq2 = none ∧
    (nmatchPair uf tm nm x y).freq3 = none ∧
    nmatch_cpp_tfreq [x] [y] nm [] [] = .ok [nmatchPair false (buildTokenMap [] []) nm x y] := by
  rcases h with h | h <;>
    simp [nmatchPair, h, nmatch_cpp_tfreq]

/-- Claim C4 witness: the single-letter name tokenizes to nothing under
the default minimum token length 2. -/
theorem claim_C4_witness :
    (nmatchPair false (buildTokenMap [] []) 2 ['a'] ['b', 'o', 'b']).dist_total = 9999 ∧
    (nmatchPair false (buildTokenMap [] []) 2 ['a'] ['b', 'o', 'b']).k_align = 0 ∧
    (nmatchPair false (buildTokenMap [] []) 2 ['a'] ['b', 'o', 'b']).n_match = 0 ∧
    (nmatchPair false (buildTokenMap [] []) 2 ['a'] ['b', 'o', 'b']).freq1 = none ∧
    (nmatchPair false (buildTokenMap [] []) 2 ['a'] ['b', 'o', 'b']).freq2 = none ∧
    (nmatchPair false (buildTokenMap [] []) 2 ['a'] ['b', 'o', 'b']).freq3 = none ∧
    nmatch_cpp_tfreq [['a']] [['b', 'o', 'b']] 2 [] []
      = .ok [nmatchPair false (buildTokenMap [] []) 2 ['a'] ['b', 'o', 'b']] :=
  claim_C4 false (buildTokenMap [] []) 2 ['a'] ['b', 'o', 'b'] (Or.inl (by decide))

/-- Claim C6 (amended): the batch call validates the two stated length
preconditions before any per-pair computation, name lengths first, and a
failure is the entire result (no partial results); but non-unique
vocabulary keys are NOT rejected: whenever the two length checks pass the
call returns a result, unique keys or not (see the counterexample). -/
theorem claim_C6 (x y : List (List Char)) (nm : Nat) (token : List (List Char))
    (tf : List Int) :
    (x.length ≠ y.length → nmatch_cpp_tfreq x y nm token tf = .error .LengthMismatch) ∧
    (x.length = y.length → token.length ≠ tf.length →
      nmatch_cpp_tfreq x y nm token tf = .error .VocabularyMismatch) ∧
    (x.length = y.length → token.length = tf.length →
      ∃ rs, nmatch_cpp_tfreq x y nm token tf = .ok rs) := by
  refine ⟨fun h1 => ?_, fun h1 h2 => ?_, fun h1 h2 => ?_⟩
  · simp [nmatch_cpp_tfreq, h1]
  · simp [nmatch_cpp_tfreq, h1, h2]
  · refine ⟨(x.zip y).map fun ab =>
      nmatchPair (decide (0 < token.length)) (buildTokenMap token tf) nm ab.1 ab.2, ?_⟩
    unfold nmatch_cpp_tfreq
    rw [if_neg (by omega), if_neg (by omega)]

/-- Claim C6 witness: both failure kinds at concrete inputs. -/
theorem claim_C6_witness :
    nmatch_cpp_tfreq [['a', 'b']] [] 2 [] [] = .error .LengthMismatch ∧
    nmatch_cpp_tfreq [['a', 'b']] [['a', 'b']] 2 [['x']] [] = .error .VocabularyMismatch :=
  ⟨(claim_C6 [['a', 'b']] [] 2 [] []).1 (by decide),
   (claim_C6 [['a', 'b']] [['a', 'b']] 2 [['x']] []).2.1 (by decide) (by decide)⟩

/-- Claim C6 counterexample: a batch call whose vocabulary keys are not
unique is not rejected; it succeeds (the source never checks key
uniqueness, nmatch_cpp.cpp lines 107-137). -/
theorem claim_C6_cex :
    ¬ ([['x'], ['x']] : List (List Char)).Nodup ∧
    nmatch_cpp_tfreq [['a']] [['a']] 2 [['x'], ['x']] [1, 2]
      = .ok [nmatchPair true (buildTokenMap [['x'], ['x']] [1, 2]) 2 ['a'] ['a']] := by
  constructor
  · decide
  · decide

/-- Folding key/value insertions equals looking the key up from the back
of the list: the latest insertion for a key wins. -/
theorem foldl_insert_eq_revFind (l : List (List Char × Int)) :
    ∀ (m0 : List Char → Option Int) (k : List Char),
      l.foldl (fun mp kv => fun q => if q = kv.1 then some kv.2 else mp q) m0 k
        = match l.reverse.find? (fun kv => kv.1 == k) with
          | some kv => some kv.2
          | none => m0 k := by
  induction l with
  | nil => intro m0 k; simp
  | cons kv rest ih =>
    intro m0 k
    rw [List.foldl_cons, ih, List.reverse_cons, List.find?_append]
    cases hfind : rest.reverse.find? (fun kv' => kv'.1 == k) with
    | some kv' => simp [Option.or_some]
    | none =>
      simp only [Option.none_or, List.find?_singleton]
      by_cases hk : kv.1 = k
      · simp [hk]
      · have hk2 : ¬ k = kv.1 := fun hq => hk hq.symm
        simp [hk, hk2]

/-- Claim C10: duplicate keys in the supplied frequency table are
accepted, and every lookup returns the value paired with the key's last
occurrence in the key sequence (later `token_map[key] = value` assignments
overwrite earlier ones, nmatch_cpp.cpp lines 133-137). -/
theorem claim_C10 (token : List (List Char)) (tf : List Int) :
    (∀ k, buildTokenMap token tf k
      = ((token.zip tf).reverse.find? (fun kv => kv.1 == k)).map (fun kv => kv.2)) ∧
    (∀ (x y : List (List Char)) (nm : Nat), x.length = y.length →
      token.length = tf.length → ∃ rs, nmatch_cpp_tfreq x y nm token tf = .ok rs) := by
  constructor
  · intro k
    rw [buildTokenMap, foldl_insert_eq_revFind]
    cases (token.zip tf).reverse.find? (fun kv => kv.1 == k) <;> simp
  · intro x y nm h1 h2
    refine ⟨(x.zip y).map fun ab =>
      nmatchPair (decide (0 < token.length)) (buildTokenMap token tf) nm ab.1 ab.2, ?_⟩
    unfold nmatch_cpp_tfreq
    rw [if_neg (by omega), if_neg (by omega)]

/-- Claim C10 witness: with the duplicate key list `[x, x]` and values
`[1, 2]`, the lookup of `x` yields 2 (the later value), and a batch call
with that vocabulary succeeds. -/
theorem claim_C10_witness :
    buildTokenMap [['x'], ['x']] [1, 2] ['x']
      = (((([['x'], ['x']] : List (List Char)).zip ([1, 2] : List Int)).reverse.find?
          (fun kv => kv.1 == ['x'])).map fun kv => kv.2) ∧
    ∃ rs, nmatch_cpp_tfreq [['a']] [['a']] 2 [['x'], ['x']] [1, 2] = .ok rs :=
  ⟨(claim_C10 [['x'], ['x']] [1, 2]).1 ['x'],
   (claim_C10 [['x'], ['x']] [1, 2]).2 [['a']] [['a']] 2 rfl rfl⟩

/-- Swapping the two strings transposes the OSA matrix. -/
theorem osaF_symm (s1 s2 : List Char) :
    ∀ (fuel i j : Nat), osaF s1 s2 fuel i j = osaF s2 s1 fuel j i := by
  intro fuel
  induction fuel with
  | zero =>
    intro i j
    cases i <;> cases j <;> simp [osaF]
  | succ fuel ih =>
    intro i j
    cases i with
    | zero => cases j <;> simp [osaF]
    | succ i =>
      cases j with
      | zero => simp [osaF]
      | succ j =>
        have hcost : (if s2.getD j ' ' = s1.getD i ' ' then (0 : Nat) else 1)
            = (if s1.getD i ' ' = s2.getD j ' ' then (0 : Nat) else 1) := by
          by_cases h : s1.getD i ' ' = s2.getD j ' '
          · rw [if_pos h, if_pos h.symm]
          · rw [if_neg h, if_neg fun hh => h hh.symm]
        have hguard :
            (1 ≤ j ∧ 1 ≤ i ∧ s2.getD j ' ' = s1.getD (i-1) ' ' ∧ s2.getD (j-1) ' ' = s1.getD i ' ')
              ↔ (1 ≤ i ∧ 1 ≤ j ∧ s1.getD i ' ' = s2.getD (j-1) ' ' ∧ s1.getD (i-1) ' ' = s2.getD j ' ') := by
          constructor
          · rintro ⟨ha, hb, hc, hd⟩
            exact ⟨hb, ha, hd.symm, hc.symm⟩
          · rintro ⟨ha, hb, hc, hd⟩
            exact ⟨hb, ha, hd.symm, hc.symm⟩
        simp only [osaF]
        rw [hcost, if_congr hguard rfl rfl,
          ← ih (i+1) j, ← ih i (j+1), ← ih i j, ← ih (i-1) (j-1)]
        by_cases hg :
            1 ≤ i ∧ 1 ≤ j ∧ s1.getD i ' ' = s2.getD (j-1) ' ' ∧ s1.getD (i-1) ' ' = s2.getD j ' '
        · rw [if_pos hg, if_pos hg]
          omega
        · rw [if_neg hg, if_neg hg]
          omega

/-- A zero OSA matrix cell forces equal indices and equal characters below
them. -/
theorem osaF_zero (s1 s2 : List Char) :
    ∀ (fuel i j : Nat), i + j ≤ fuel → osaF s1 s2 fuel i j = 0 →
      i = j ∧ ∀ t, t < i → s1.getD t ' ' = s2.getD t ' ' := by
  intro fuel
  induction fuel with
  | zero =>
    intro i j hb h
    have hi : i = 0 := by omega
    have hj : j = 0 := by omega
    subst hi
    subst hj
    exact ⟨rfl, fun t ht => absurd ht (by omega)⟩
  | succ fuel ih =>
    intro i j hb h
    cases i with
    | zero =>
      simp only [osaF] at h
      exact ⟨h.symm, fun t ht => absurd ht (by omega)⟩
    | succ i =>
      cases j with
      | zero => simp [osaF] at h
      | succ j =>
        simp only [osaF] at h
        by_cases hg :
            1 ≤ i ∧ 1 ≤ j ∧ s1.getD i ' ' = s2.getD (j-1) ' ' ∧ s1.getD (i-1) ' ' = s2.getD j ' '
        · rw [if_pos hg] at h
          by_cases hc : s1.getD i ' ' = s2.getD j ' '
          · rw [if_pos hc] at h
            have hsub : osaF s1 s2 fuel i j = 0 ∨ osaF s1 s2 fuel (i-1) (j-1) = 0 := by
              omega
            rcases hsub with h3 | h4
            · obtain ⟨hij, hpt⟩ := ih i j (by omega) h3
              subst hij
              refine ⟨rfl, fun t ht => ?_⟩
              have : t < i ∨ t = i := by omega
              rcases this with ht' | ht'
              · exact hpt t ht'
              · subst ht'
                exact hc
            · obtain ⟨hg1, hg2, hgc, hgd⟩ := hg
              obtain ⟨hij, hpt⟩ := ih (i-1) (j-1) (by omega) h4
              have hij' : i = j := by omega
              subst hij'
              refine ⟨rfl, fun t ht => ?_⟩
              by_cases h1 : t < i - 1
              · exact hpt t h1
              · have : t = i - 1 ∨ t = i := by omega
                rcases this with ht' | ht'
                · subst ht'
                  rw [hgd, ← hc, hgc]
                · subst ht'
                  exact hc
          · rw [if_neg hc] at h
            omega
        · rw [if_neg hg] at h
          by_cases hc : s1.getD i ' ' = s2.getD j ' '
          · rw [if_pos hc] at h
            have h3 : osaF s1 s2 fuel i j = 0 := by omega
            obtain ⟨hij, hpt⟩ := ih i j (by omega) h3
            subst hij
            refine ⟨rfl, fun t ht => ?_⟩
            have : t < i ∨ t = i := by omega
            rcases this with ht' | ht'
            · exact hpt t ht'
            · subst ht'
              exact hc
          · rw [if_neg hc] at h
            omega

/-- Diagonal OSA matrix cells over pointwise-equal prefixes are zero. -/
theorem osaF_diag (s1 s2 : List Char) :
    ∀ (fuel i : Nat), (∀ t, t < i → s1.getD t ' ' = s2.getD t ' ') → i + i ≤ fuel →
      osaF s1 s2 fuel i i = 0 := by
  intro fuel
  induction fuel with
  | zero =>
    intro i hpt hb
    have hi : i = 0 := by omega
    subst hi
    simp [osaF]
  | succ fuel ih =>
    intro i hpt hb
    cases i with
    | zero => simp [osaF]
    | succ i =>
      have hc : s1.getD i ' ' = s2.getD i ' ' := hpt i (by omega)
      have hrec : osaF s1 s2 fuel i i = 0 := ih i (fun t ht => hpt t (by omega)) (by omega)
      simp only [osaF]
      by_cases hg :
          1 ≤ i ∧ 1 ≤ i ∧ s1.getD i ' ' = s2.getD (i-1) ' ' ∧ s1.getD (i-1) ' ' = s2.getD i ' '
      · rw [if_pos hg, if_pos hc]
        omega
      · rw [if_neg hg, if_pos hc]
        omega

/-- Claim C3: the OSA distance is a non-negative integer, symmetric, and
zero exactly on equal strings. -/
theorem claim_C3 (s1 s2 : List Char) :
    0 ≤ osa_distance s1 s2 ∧
    osa_distance s1 s2 = osa_distance s2 s1 ∧
    (osa_distance s1 s2 = 0 ↔ s1 = s2) := by
  refine ⟨Nat.zero_le _, ?_, ?_, ?_⟩
  · unfold osa_distance
    rw [osaF_symm, Nat.add_comm]
  · intro h
    obtain ⟨hlen, hpt⟩ := osaF_zero s1 s2 (s1.length + s2.length) s1.length s2.length
      (by omega) h
    refine List.ext_getElem hlen fun t h1 h2 => ?_
    have ht := hpt t h1
    rwa [List.getD_eq_getElem _ _ h1, List.getD_eq_getElem _ _ h2] at ht
  · intro h
    subst h
    unfold osa_distance
    exact osaF_diag s1 s1 _ _ (fun t ht => rfl) (by omega)

/-- The pruned partial sum never exceeds the full sum. -/
theorem pruneSumAux_le (md : Nat) :
    ∀ (ds : List Nat) (acc : Nat), pruneSumAux md ds acc ≤ acc + ds.sum := by
  intro ds
  induction ds with
  | nil => intro acc; simp [pruneSumAux]
  | cons d rest ih =>
    intro acc
    simp only [pruneSumAux, List.sum_cons]
    by_cases h : acc < md
    · rw [if_pos h]
      have := ih (acc + d)
      omega
    · rw [if_neg h]
      omega

/-- When pruning did not trigger, the pruned sum is the full sum. -/
theorem pruneSumAux_lt (md : Nat) :
    ∀ (ds : List Nat) (acc : Nat), pruneSumAux md ds acc < md →
      pruneSumAux md ds acc = acc + ds.sum := by
  intro ds
  induction ds with
  | nil => intro acc _; simp [pruneSumAux]
  | cons d rest ih =>
    intro acc h
    simp only [pruneSumAux, List.sum_cons]
    by_cases h1 : acc < md
    · rw [if_pos h1]
      have h2 : pruneSumAux md rest (acc + d) < md := by
        simpa [pruneSumAux, if_pos h1] using h
      have := ih (acc + d) h2
      omega
    · simp only [pruneSumAux, if_neg h1] at h
      omega

/-- Running minimum is at most its starting value. -/
theorem foldl_min_le_init : ∀ (l : List Nat) (md : Nat), l.foldl min md ≤ md := by
  intro l
  induction l with
  | nil => intro md; simp
  | cons a rest ih =>
    intro md
    have := ih (min md a)
    simp only [List.foldl_cons]
    omega

/-- Running minimum is at most every list element. -/
theorem foldl_min_le_mem : ∀ (l : List Nat) (md a : Nat), a ∈ l → l.foldl min md ≤ a := by
  intro l
  induction l with
  | nil => intro md a h; simp at h
  | cons b rest ih =>
    intro md a h
    rcases List.mem_cons.mp h with h | h
    · subst h
      have := foldl_min_le_init rest (min md a)
      simp only [List.foldl_cons]
      omega
    · exact ih (min md b) a h

/-- Running minimum is the starting value or a list element. -/
theorem foldl_min_cases : ∀ (l : List Nat) (md : Nat),
    l.foldl min md = md ∨ l.foldl min md ∈ l := by
  intro l
  induction l with
  | nil => intro md; simp
  | cons b rest ih =>
    intro md
    rcases ih (min md b) with h | h
    · simp only [List.foldl_cons]
      rcases Nat.le_total md b with h1 | h1
      · left
        rw [h]
        omega
      · right
        have hb : min md b = b := by omega
        rw [h, hb]
        exact List.mem_cons_self b rest
    · right
      right
      simpa using h

/-- First component of the search: the running minimum of the candidate
scores, independent of pruning and of the stop-on-zero break. -/
theorem searchLoop_fst (d : Nat → Nat → Nat) (pr : Nat → Nat → List Char × List Char)
    (m : Nat) :
    ∀ (perms : List (List Nat)) (md : Nat) (best : List (List Char × List Char × Nat)),
      (searchLoop d pr m perms md best).1 = (perms.map (permScore d m)).foldl min md := by
  intro perms
  induction perms with
  | nil => intro md best; simp [searchLoop]
  | cons p rest ih =>
    intro md best
    simp only [searchLoop, List.map_cons, List.foldl_cons]
    by_cases h1 : pruneSumAux md ((List.range m).map fun j => d j (p.getD j 0)) 0 < md
    · have heq : pruneSumAux md ((List.range m).map fun j => d j (p.getD j 0)) 0
          = permScore d m p := by
        have := pruneSumAux_lt md ((List.range m).map fun j => d j (p.getD j 0)) 0 h1
        simpa [permScore] using this
      rw [if_pos h1]
      by_cases h2 : pruneSumAux md ((List.range m).map fun j => d j (p.getD j 0)) 0 = 0
      · rw [if_pos h2]
        have hz : permScore d m p = 0 := by omega
        rw [hz]
        have := foldl_min_le_init (rest.map (permScore d m)) (min md 0)
        simp only at this ⊢
        omega
      · rw [if_neg h2, ih]
        have hmin : min md (permScore d m p) = permScore d m p := by omega
        rw [heq, hmin]
    · rw [if_neg h1]
      have hle := pruneSumAux_le md ((List.range m).map fun j => d j (p.getD j 0)) 0
      have hs : md ≤ permScore d m p := by
        have : ((List.range m).map fun j => d j (p.getD j 0)).sum = permScore d m p := rfl
        omega
      rw [ih]
      have hmin : min md (permScore d m p) = md := by omega
      rw [hmin]

/-- Second component of the search: unchanged when no candidate improves
on the starting minimum, and otherwise the stored pairs of the FIRST
candidate (in enumeration order) that attains the final minimum — the
best candidate is replaced only on a strictly smaller total. -/
theorem searchLoop_snd (d : Nat → Nat → Nat) (pr : Nat → Nat → List Char × List Char)
    (m : Nat) :
    ∀ (perms : List (List Nat)) (md : Nat) (best : List (List Char × List Char × Nat)),
      (¬ (perms.map (permScore d m)).foldl min md < md →
        (searchLoop d pr m perms md best).2 = best) ∧
      ((perms.map (permScore d m)).foldl min md < md →
        ∃ p, perms.find?
            (fun q => permScore d m q == (perms.map (permScore d m)).foldl min md) = some p ∧
          (searchLoop d pr m perms md best).2 = permPairs d pr m p) := by
  intro perms
  induction perms with
  | nil =>
    intro md best
    constructor
    · intro _
      simp [searchLoop]
    · intro h
      simp at h
  | cons p rest ih =>
    intro md best
    simp only [searchLoop, List.map_cons, List.foldl_cons]
    by_cases h1 : pruneSumAux md ((List.range m).map fun j => d j (p.getD j 0)) 0 < md
    · have heq : pruneSumAux md ((List.range m).map fun j => d j (p.getD j 0)) 0
          = permScore d m p := by
        have := pruneSumAux_lt md ((List.range m).map fun j => d j (p.getD j 0)) 0 h1
        simpa [permScore] using this
      have hs : permScore d m p < md := by omega
      have hms : min md (permScore d m p) = permScore d m p := by omega
      rw [if_pos h1, hms, heq]
      by_cases h2 : permScore d m p = 0
      · have hF : (rest.map (permScore d m)).foldl min (permScore d m p) = 0 := by
          have := foldl_min_le_init (rest.map (permScore d m)) (permScore d m p)
          omega
        rw [if_pos h2, hF]
        constructor
        · intro h
          exfalso
          omega
        · intro _
          refine ⟨p, ?_, rfl⟩
          rw [List.find?_cons_of_pos]
          rw [beq_iff_eq]
          exact h2
      · rw [if_neg h2]
        obtain ⟨ih1, ih2⟩ := ih (permScore d m p) (permPairs d pr m p)
        have hFle : (rest.map (permScore d m)).foldl min (permScore d m p)
            ≤ permScore d m p := foldl_min_le_init _ _
        constructor
        · intro h
          exfalso
          omega
        · intro _
          by_cases hF : (rest.map (permScore d m)).foldl min (permScore d m p)
              < permScore d m p
          · obtain ⟨p', hfind, heq2⟩ := ih2 hF
            refine ⟨p', ?_, heq2⟩
            rw [List.find?_cons_of_neg]
            · exact hfind
            · rw [beq_iff_eq]
              omega
          · have hFeq : (rest.map (permScore d m)).foldl min (permScore d m p)
                = permScore d m p := by omega
            refine ⟨p, ?_, ih1 hF⟩
            rw [List.find?_cons_of_pos]
            rw [beq_iff_eq]
            omega
    · have hle := pruneSumAux_le md ((List.range m).map fun j => d j (p.getD j 0)) 0
      have hs : md ≤ permScore d m p := by
        have hsum : ((List.range m).map fun j => d j (p.getD j 0)).sum = permScore d m p := rfl
        omega
      have hms : min md (permScore d m p) = md := by omega
      rw [if_neg h1, hms]
      obtain ⟨ih1, ih2⟩ := ih md best
      constructor
      · exact ih1
      · intro h
        obtain ⟨p', hfind, heq2⟩ := ih2 h
        refine ⟨p', ?_, heq2⟩
        rw [List.find?_cons_of_neg]
        · exact hfind
        · rw [beq_iff_eq]
          omega

/-- The picked elements of `selects l` are exactly `l`, in order. -/
theorem selects_map_fst {α : Type} : ∀ l : List α, (selects l).map Prod.fst = l := by
  intro l
  induction l with
  | nil => simp [selects]
  | cons a as ih =>
    simp only [selects, List.map_cons, List.map_map]
    show a :: (selects as).map Prod.fst = a :: as
    rw [ih]

/-- Picking an element is a permutation: `l` is a permutation of the
picked element consed on the remainder. -/
theorem selects_perm {α : Type} : ∀ (l : List α) (b : α) (r : List α),
    (b, r) ∈ selects l → l.Perm (b :: r) := by
  intro l
  induction l with
  | nil => intro b r h; simp [selects] at h
  | cons a as ih =>
    intro b r h
    simp only [selects, List.mem_cons, List.mem_map] at h
    rcases h with h | ⟨⟨b', r'⟩, hmem, hfr⟩
    · injection h with h1 h2
      subst h1
      subst h2
      exact List.Perm.refl _
    · injection hfr with h1 h2
      subst h1
      subst h2
      exact ((ih b' r' hmem).cons a).trans (List.Perm.swap b' a r')

/-- The remainder of a pick is a sublist of the original list. -/
theorem selects_sublist {α : Type} : ∀ (l : List α) (b : α) (r : List α),
    (b, r) ∈ selects l → r.Sublist l := by
  intro l
  induction l with
  | nil => intro b r h; simp [selects] at h
  | cons a as ih =>
    intro b r h
    simp only [selects, List.mem_cons, List.mem_map] at h
    rcases h with h | ⟨⟨b', r'⟩, hmem, hfr⟩
    · injection h with h1 h2
      rw [h2]
      exact List.sublist_cons_self a as
    · injection hfr with h1 h2
      subst h2
      exact List.Sublist.cons₂ a (ih b' r' hmem)

/-- Splitting a list at an occurrence of `b` is one of its picks. -/
theorem selects_of_append {α : Type} :
    ∀ (l1 l2 : List α) (b : α), (b, l1 ++ l2) ∈ selects (l1 ++ b :: l2) := by
  intro l1
  induction l1 with
  | nil => intro l2 b; simp [selects]
  | cons a l1 ih =>
    intro l2 b
    simp only [List.cons_append, selects, List.mem_cons, List.mem_map]
    right
    exact ⟨(b, l1 ++ l2), ih l2 b, rfl⟩

/-- Membership in the permutation enumeration is exactly being a
permutation (for the right fuel). -/
theorem mem_permsAux {α : Type} :
    ∀ (n : Nat) (l q : List α), l.length = n → (q ∈ permsAux n l ↔ q.Perm l) := by
  intro n
  induction n with
  | zero =>
    intro l q hl
    have : l = [] := List.length_eq_zero.mp hl
    subst this
    simp [permsAux, List.perm_nil]
  | succ n ih =>
    intro l q hl
    simp only [permsAux, List.mem_flatMap, List.mem_map]
    constructor
    · rintro ⟨⟨b, r⟩, hsel, q', hq', rfl⟩
      have hperm := selects_perm l b r hsel
      have hr : r.length = n := by
        have := hperm.length_eq
        simp at this
        omega
      have := (ih r q' hr).mp hq'
      exact (this.cons b).trans hperm.symm
    · intro hq
      have hlen : q.length = n + 1 := by
        rw [hq.length_eq, hl]
      cases q with
      | nil => simp at hlen
      | cons b q' =>
        have hb : b ∈ l := hq.mem_iff.mp (List.mem_cons_self b q')
        obtain ⟨l1, l2, rfl⟩ := List.append_of_mem hb
        have hsel := selects_of_append l1 l2 b
        have hq' : q'.Perm (l1 ++ l2) := by
          have h1 : (b :: q').Perm (b :: (l1 ++ l2)) := hq.trans List.perm_middle
          exact h1.cons_inv
        have hr : (l1 ++ l2).length = n := by
          have h3 := hq'.length_eq
          simp only [List.length_cons, List.length_append] at hlen h3 ⊢
          omega
        exact ⟨(b, l1 ++ l2), hsel, q', (ih (l1 ++ l2) q' hr).mpr hq', rfl⟩

/-- Enumeration order: when the input list is sorted with no duplicates,
the permutations are produced in strictly increasing lexicographic order
(as `std::next_permutation` does from a sorted start). -/
theorem permsAux_sorted : ∀ (n : Nat) (l : List Nat), l.Pairwise (· < ·) →
    (permsAux n l).Pairwise (List.Lex (· < ·)) := by
  intro n
  induction n with
  | zero => intro l _; simp [permsAux]
  | succ n ih =>
    intro l hl
    simp only [permsAux]
    rw [List.flatMap_def, List.pairwise_flatten]
    constructor
    · intro blk hblk
      rw [List.mem_map] at hblk
      obtain ⟨⟨b, r⟩, hmem, rfl⟩ := hblk
      rw [List.pairwise_map]
      have hr : r.Pairwise (· < ·) :=
        List.Pairwise.sublist (selects_sublist l b r hmem) hl
      exact (ih r hr).imp fun h => List.Lex.cons h
    · rw [List.pairwise_map]
      have hfst : (selects l).Pairwise (fun p q => p.1 < q.1) := by
        have h2 := hl
        rw [← selects_map_fst l, List.pairwise_map] at h2
        exact h2
      refine hfst.imp ?_
      intro p q hpq x hx y hy
      rw [List.mem_map] at hx hy
      obtain ⟨x', _, rfl⟩ := hx
      obtain ⟨y', _, rfl⟩ := hy
      exact List.Lex.rel hpq

/-- OSA distance is symmetric. -/
theorem osa_distance_symm (s1 s2 : List Char) :
    osa_distance s1 s2 = osa_distance s2 s1 := by
  unfold osa_distance
  rw [osaF_symm, Nat.add_comm]

/-- Candidate score as a `Finset.range` sum. -/
theorem permScore_sum (d : Nat → Nat → Nat) (m : Nat) (p : List Nat) :
    permScore d m p = ∑ j ∈ Finset.range m, d j (p.getD j 0) := by
  unfold permScore
  induction m with
  | zero => simp
  | succ m ih =>
    rw [List.range_succ, List.map_append, List.sum_append, Finset.sum_range_succ, ih]
    simp

/-- Length of the longer token sequence is the max of the lengths. -/
theorem longerOf_length {α : Type} (a b : List α) :
    (longerOf a b).length = max a.length b.length := by
  unfold longerOf
  by_cases h : a.length ≤ b.length
  · rw [if_pos h]
    omega
  · rw [if_neg h]
    omega

/-- The token distance used by the search is the OSA distance of the
shorter-side token against the longer-side token. -/
theorem alignD_eq (tx ty : List (List Char)) (j i : Nat) :
    alignD tx ty j i
      = osa_distance ((shorterOf tx ty).getD j []) ((longerOf tx ty).getD i []) := by
  unfold alignD shorterOf longerOf
  by_cases h : tx.length ≤ ty.length
  · rw [if_pos h, if_pos h, if_pos h]
  · rw [if_neg h, if_neg h, if_neg h]
    exact osa_distance_symm _ _

/-- Every injection of the first `m` positions into `L` positions is
realized by some enumerated permutation of `range L`. -/
theorem exists_perm_of_inj (L m : Nat) (_hm : m ≤ L) (f : Fin m → Fin L)
    (hf : Function.Injective f) :
    ∃ p ∈ permsLex (List.range L), ∀ j (h : j < m), p.getD j 0 = (f ⟨j, h⟩).val := by
  classical
  set A : List Nat := List.ofFn fun j => (f j).val with hA
  have hAlen : A.length = m := by simp [hA]
  have hAnodup : A.Nodup := by
    rw [hA, List.nodup_ofFn]
    exact Fin.val_injective.comp hf
  set B : List Nat := (List.range L).filter (fun i => decide (i ∉ A)) with hB
  have hBnodup : B.Nodup := List.Nodup.filter _ (List.nodup_range L)
  have hdisj : A.Disjoint B := by
    intro t htA htB
    rw [hB, List.mem_filter] at htB
    have := htB.2
    simp at this
    exact this htA
  have hnodup : (A ++ B).Nodup := by
    rw [List.nodup_append]
    exact ⟨hAnodup, hBnodup, hdisj⟩
  have hmem : ∀ t, t ∈ A ++ B ↔ t ∈ List.range L := by
    intro t
    constructor
    · intro ht
      rcases List.mem_append.mp ht with ht | ht
      · rw [hA] at ht
        rw [List.mem_ofFn] at ht
        obtain ⟨j, rfl⟩ := ht
        exact List.mem_range.mpr (f j).isLt
      · rw [hB, List.mem_filter] at ht
        exact ht.1
    · intro ht
      by_cases hcase : t ∈ A
      · exact List.mem_append.mpr (Or.inl hcase)
      · refine List.mem_append.mpr (Or.inr ?_)
        rw [hB, List.mem_filter]
        exact ⟨ht, by simpa using hcase⟩
  have hperm : (A ++ B).Perm (List.range L) :=
    (List.perm_ext_iff_of_nodup hnodup (List.nodup_range L)).mpr hmem
  refine ⟨A ++ B, ?_, ?_⟩
  · exact (mem_permsAux (List.range L).length (List.range L) (A ++ B) rfl).mpr hperm
  · intro j hj
    have hjA : j < A.length := by omega
    rw [List.getD_append _ _ _ _ hjA, List.getD_eq_getElem _ _ hjA]
    simp [hA]

/-- Every enumerated permutation of `range L` restricts to an injection
of the first `m` positions into `L` positions. -/
theorem inj_of_mem_perm (L m : Nat) (hm : m ≤ L) (p : List Nat)
    (hp : p ∈ permsLex (List.range L)) :
    ∃ f : Fin m → Fin L, Function.Injective f ∧
      ∀ j (h : j < m), (f ⟨j, h⟩).val = p.getD j 0 := by
  have hperm := (mem_permsAux (List.range L).length (List.range L) p rfl).mp hp
  have plen : p.length = L := by simpa using hperm.length_eq
  have pnodup : p.Nodup := hperm.symm.nodup (List.nodup_range L)
  have hbound : ∀ j : Nat, j < m → p.getD j 0 < L := by
    intro j hj
    have hj' : j < p.length := by omega
    rw [List.getD_eq_getElem _ _ hj']
    have h1 : p[j] ∈ p := List.getElem_mem hj'
    have h2 : p[j] ∈ List.range L := hperm.mem_iff.mp h1
    exact List.mem_range.mp h2
  refine ⟨fun j => ⟨p.getD j.val 0, hbound j.val j.isLt⟩, ?_, ?_⟩
  · intro j1 j2 h12
    have hv : p.getD j1.val 0 = p.getD j2.val 0 := congrArg Fin.val h12
    have h1 : (j1 : Nat) < p.length := by omega
    have h2 : (j2 : Nat) < p.length := by omega
    rw [List.getD_eq_getElem _ _ h1, List.getD_eq_getElem _ _ h2] at hv
    exact Fin.ext ((pnodup.getElem_inj_iff).mp hv)
  · intro j hj
    rfl

/-- On a pair with two non-empty token sequences the per-pair record is
built from the permutation search. -/
theorem nmatchPair_nonempty (uf : Bool) (tm : List Char → Option Int) (nm : Nat)
    (x y : List Char) (hx : tokenize_name x nm ≠ []) (hy : tokenize_name y nm ≠ []) :
    nmatchPair uf tm nm x y =
      ⟨(tokenize_name x nm).length, (tokenize_name y nm).length,
       min (tokenize_name x nm).length (tokenize_name y nm).length,
       (alignBest (tokenize_name x nm) (tokenize_name y nm)).2.countP
         (fun t => match_eval_token_cpp t.1.length t.2.1.length t.2.2),
       (alignBest (tokenize_name x nm) (tokenize_name y nm)).1,
       computeFreqs uf tm (alignBest (tokenize_name x nm) (tokenize_name y nm)).2 0,
       computeFreqs uf tm (alignBest (tokenize_name x nm) (tokenize_name y nm)).2 1,
       computeFreqs uf tm (alignBest (tokenize_name x nm) (tokenize_name y nm)).2 2⟩ := by
  have hcond : ((tokenize_name x nm).isEmpty || (tokenize_name y nm).isEmpty) = false := by
    simp [List.isEmpty_iff, hx, hy]
  simp only [nmatchPair, hcond, Bool.false_eq_true, if_false]

/-- Lower bound: the search minimum is at most the score of every
injection of shorter-sequence positions into longer-sequence positions. -/
theorem alignBest_le (tx ty : List (List Char))
    (f : Fin (min tx.length ty.length) → Fin (longerOf tx ty).length)
    (hf : Function.Injective f) :
    (alignBest tx ty).1 ≤ ∑ j, osa_distance ((shorterOf tx ty).getD j.val [])
      ((longerOf tx ty).getD (f j).val []) := by
  have hmL : min tx.length ty.length ≤ (longerOf tx ty).length := by
    rw [longerOf_length]
    omega
  obtain ⟨p, hpmem, hpg⟩ := exists_perm_of_inj (longerOf tx ty).length
    (min tx.length ty.length) hmL f hf
  have hscore : permScore (alignD tx ty) (min tx.length ty.length) p
      = ∑ j, osa_distance ((shorterOf tx ty).getD j.val [])
          ((longerOf tx ty).getD (f j).val []) := by
    rw [permScore_sum, ← Fin.sum_univ_eq_sum_range]
    apply Finset.sum_congr rfl
    intro j _
    rw [alignD_eq, hpg j.val j.isLt]
  calc (alignBest tx ty).1
      = ((permsLex (List.range (longerOf tx ty).length)).map
          (permScore (alignD tx ty) (min tx.length ty.length))).foldl min INT_MAX := by
        unfold alignBest
        exact searchLoop_fst _ _ _ _ _ _
    _ ≤ permScore (alignD tx ty) (min tx.length ty.length) p := by
        apply foldl_min_le_mem
        exact List.mem_map.mpr ⟨p, hpmem, rfl⟩
    _ = _ := hscore

/-- Attainment: when the search minimum is a real distance (below the
`INT_MAX` start value), it is the score of some injection. -/
theorem alignBest_attained (tx ty : List (List Char))
    (hlt : (alignBest tx ty).1 < INT_MAX) :
    ∃ f : Fin (min tx.length ty.length) → Fin (longerOf tx ty).length,
      Function.Injective f ∧
        (alignBest tx ty).1 = ∑ j, osa_distance ((shorterOf tx ty).getD j.val [])
          ((longerOf tx ty).getD (f j).val []) := by
  have hmL : min tx.length ty.length ≤ (longerOf tx ty).length := by
    rw [longerOf_length]
    omega
  have hfst : (alignBest tx ty).1
      = ((permsLex (List.range (longerOf tx ty).length)).map
          (permScore (alignD tx ty) (min tx.length ty.length))).foldl min INT_MAX := by
    unfold alignBest
    exact searchLoop_fst _ _ _ _ _ _
  rcases foldl_min_cases ((permsLex (List.range (longerOf tx ty).length)).map
      (permScore (alignD tx ty) (min tx.length ty.length))) INT_MAX with hc | hc
  · rw [hfst] at hlt
    omega
  · obtain ⟨p, hpmem, hpF⟩ := List.mem_map.mp hc
    obtain ⟨f, hfinj, hfg⟩ := inj_of_mem_perm (longerOf tx ty).length
      (min tx.length ty.length) hmL p hpmem
    refine ⟨f, hfinj, ?_⟩
    rw [hfst, ← hpF, permScore_sum, ← Fin.sum_univ_eq_sum_range]
    apply Finset.sum_congr rfl
    intro j _
    rw [alignD_eq, ← hfg j.val j.isLt]

/-- Claim C1: for a pair with two non-empty token sequences, the reported
`dist_total` is the minimum, over all one-to-one correspondences from the
positions of the shorter token sequence into positions of the longer, of
the summed OSA distances of the corresponding tokens (positions of the
longer sequence beyond the assigned ones are not scored: the sum ranges
over the shorter sequence's positions only).  The search embedded in
`alignBest` includes both the partial-sum pruning and the stop-on-zero
break of the source, so neither changes this minimum.  The hypothesis
rules out the degenerate regime in which every correspondence scores at
least the `INT_MAX` start value of the search. -/
theorem claim_C1 (uf : Bool) (tm : List Char → Option Int) (nm : Nat) (x y : List Char)
    (hx : tokenize_name x nm ≠ []) (hy : tokenize_name y nm ≠ [])
    (hmin : ∃ f : Fin (min (tokenize_name x nm).length (tokenize_name y nm).length) →
          Fin (longerOf (tokenize_name x nm) (tokenize_name y nm)).length,
        Function.Injective f ∧
          (∑ j, osa_distance
            ((shorterOf (tokenize_name x nm) (tokenize_name y nm)).getD j.val [])
            ((longerOf (tokenize_name x nm) (tokenize_name y nm)).getD (f j).val []))
            < INT_MAX) :
    (∀ f : Fin (min (tokenize_name x nm).length (tokenize_name y nm).length) →
        Fin (longerOf (tokenize_name x nm) (tokenize_name y nm)).length,
      Function.Injective f →
        (nmatchPair uf tm nm x y).dist_total ≤
          ∑ j, osa_distance
            ((shorterOf (tokenize_name x nm) (tokenize_name y nm)).getD j.val [])
            ((longerOf (tokenize_name x nm) (tokenize_name y nm)).getD (f j).val [])) ∧
    (∃ f : Fin (min (tokenize_name x nm).length (tokenize_name y nm).length) →
        Fin (longerOf (tokenize_name x nm) (tokenize_name y nm)).length,
      Function.Injective f ∧
        (nmatchPair uf tm nm x y).dist_total =
          ∑ j, osa_distance
            ((shorterOf (tokenize_name x nm) (tokenize_name y nm)).getD j.val [])
            ((longerOf (tokenize_name x nm) (tokenize_name y nm)).getD (f j).val [])) := by
  have hrec : (nmatchPair uf tm nm x y).dist_total
      = (alignBest (tokenize_name x nm) (tokenize_name y nm)).1 := by
    rw [nmatchPair_nonempty uf tm nm x y hx hy]
  constructor
  · intro f hf
    rw [hrec]
    exact alignBest_le _ _ f hf
  · obtain ⟨f0, hf0, h0⟩ := hmin
    have hlt : (alignBest (tokenize_name x nm) (tokenize_name y nm)).1 < INT_MAX :=
      lt_of_le_of_lt (alignBest_le _ _ f0 hf0) h0
    obtain ⟨f, hfinj, heq⟩ := alignBest_attained _ _ hlt
    refine ⟨f, hfinj, ?_⟩
    rw [hrec]
    exact heq

/-- Claim C1 witness: for the pair "ab cd" / "ab dc" the reported total is
bounded by the identity correspondence's summed OSA distances. -/
theorem claim_C1_witness :
    (nmatchPair false (buildTokenMap [] []) 2
        ['a', 'b', ' ', 'c', 'd'] ['a', 'b', ' ', 'd', 'c']).dist_total ≤
      ∑ j, osa_distance
        ((shorterOf (tokenize_name ['a', 'b', ' ', 'c', 'd'] 2)
          (tokenize_name ['a', 'b', ' ', 'd', 'c'] 2)).getD j.val [])
        ((longerOf (tokenize_name ['a', 'b', ' ', 'c', 'd'] 2)
          (tokenize_name ['a', 'b', ' ', 'd', 'c'] 2)).getD
          ((fun j : Fin (min (tokenize_name ['a', 'b', ' ', 'c', 'd'] 2).length
              (tokenize_name ['a', 'b', ' ', 'd', 'c'] 2).length) =>
            (⟨j.val, lt_of_lt_of_le j.isLt (by decide)⟩ :
              Fin (longerOf (tokenize_name ['a', 'b', ' ', 'c', 'd'] 2)
                (tokenize_name ['a', 'b', ' ', 'd', 'c'] 2)).length)) j).val []) :=
  (claim_C1 false (buildTokenMap [] []) 2 ['a', 'b', ' ', 'c', 'd'] ['a', 'b', ' ', 'd', 'c']
    (by decide) (by decide)
    ⟨fun j => ⟨j.val, lt_of_lt_of_le j.isLt (by decide)⟩,
     fun a b h => Fin.ext (congrArg Fin.val h), by decide⟩).1
    (fun j => ⟨j.val, lt_of_lt_of_le j.isLt (by decide)⟩)
    (fun a b h => Fin.ext (congrArg Fin.val h))

/-- When some candidate beats the `INT_MAX` start value, the retained
pairs are exactly those of the first enumerated permutation that attains
the final minimum. -/
theorem alignBest_first_argmin (tx ty : List (List Char))
    (hmin : (alignBest tx ty).1 < INT_MAX) :
    ∃ p, (permsLex (List.range (longerOf tx ty).length)).find?
        (fun q => permScore (alignD tx ty) (min tx.length ty.length) q
          == (alignBest tx ty).1) = some p ∧
      (alignBest tx ty).2
        = permPairs (alignD tx ty) (alignPr tx ty) (min tx.length ty.length) p := by
  have hfst : (alignBest tx ty).1
      = ((permsLex (List.range (longerOf tx ty).length)).map
          (permScore (alignD tx ty) (min tx.length ty.length))).foldl min INT_MAX := by
    unfold alignBest
    exact searchLoop_fst _ _ _ _ _ _
  have h2 := (searchLoop_snd (alignD tx ty) (alignPr tx ty) (min tx.length ty.length)
    (permsLex (List.range (longerOf tx ty).length)) INT_MAX []).2
  have hF : ((permsLex (List.range (longerOf tx ty).length)).map
      (permScore (alignD tx ty) (min tx.length ty.length))).foldl min INT_MAX < INT_MAX := by
    rw [← hfst]
    exact hmin
  obtain ⟨p, hfind, hsnd⟩ := h2 hF
  refine ⟨p, ?_, ?_⟩
  · rw [hfst]
    exact hfind
  · show (alignBest tx ty).2 = _
    unfold alignBest
    exact hsnd

/-- The retained pair list has one entry per aligned position. -/
theorem alignBest_snd_length (tx ty : List (List Char))
    (hmin : (alignBest tx ty).1 < INT_MAX) :
    (alignBest tx ty).2.length = min tx.length ty.length := by
  obtain ⟨p, _, hsnd⟩ := alignBest_first_argmin tx ty hmin
  rw [hsnd]
  simp [permPairs]

/-- Claim C9: the candidate permutations are enumerated in strictly
increasing lexicographic order, the best candidate is replaced only on a
strictly smaller total (so ties keep the earlier candidate), and hence
the aligned token pairs retained for classification — and with them
`n_match` — are exactly those of the FIRST enumerated (lexicographically
least) permutation attaining the minimal total.  Determinism is inherent
in the embedding: the record is a function of the inputs. -/
theorem claim_C9 (uf : Bool) (tm : List Char → Option Int) (nm : Nat) (x y : List Char)
    (hx : tokenize_name x nm ≠ []) (hy : tokenize_name y nm ≠ [])
    (hmin : (alignBest (tokenize_name x nm) (tokenize_name y nm)).1 < INT_MAX) :
    (permsLex (List.range
        (longerOf (tokenize_name x nm) (tokenize_name y nm)).length)).Pairwise
      (List.Lex (· < ·)) ∧
    ∃ p, (permsLex (List.range
          (longerOf (tokenize_name x nm) (tokenize_name y nm)).length)).find?
        (fun q => permScore (alignD (tokenize_name x nm) (tokenize_name y nm))
            (min (tokenize_name x nm).length (tokenize_name y nm).length) q
          == (nmatchPair uf tm nm x y).dist_total) = some p ∧
      (alignBest (tokenize_name x nm) (tokenize_name y nm)).2
        = permPairs (alignD (tokenize_name x nm) (tokenize_name y nm))
            (alignPr (tokenize_name x nm) (tokenize_name y nm))
            (min (tokenize_name x nm).length (tokenize_name y nm).length) p ∧
      (nmatchPair uf tm nm x y).n_match
        = (permPairs (alignD (tokenize_name x nm) (tokenize_name y nm))
            (alignPr (tokenize_name x nm) (tokenize_name y nm))
            (min (tokenize_name x nm).length (tokenize_name y nm).length) p).countP
            (fun t => match_eval_token_cpp t.1.length t.2.1.length t.2.2) := by
  constructor
  · exact permsAux_sorted _ _ (List.pairwise_lt_range _)
  · have hrec : (nmatchPair uf tm nm x y).dist_total
        = (alignBest (tokenize_name x nm) (tokenize_name y nm)).1 := by
      rw [nmatchPair_nonempty uf tm nm x y hx hy]
    obtain ⟨p, hfind, hsnd⟩ :=
      alignBest_first_argmin (tokenize_name x nm) (tokenize_name y nm) hmin
    refine ⟨p, ?_, hsnd, ?_⟩
    · rw [hrec]
      exact hfind
    · rw [nmatchPair_nonempty uf tm nm x y hx hy]
      show (alignBest (tokenize_name x nm) (tokenize_name y nm)).2.countP _ = _
      rw [hsnd]

/-- Claim C9 witness: concrete instance on the pair "ab" / "ba". -/
theorem claim_C9_witness :
    (permsLex (List.range
        (longerOf (tokenize_name ['a', 'b'] 2) (tokenize_name ['b', 'a'] 2)).length)).Pairwise
      (List.Lex (· < ·)) ∧
    ∃ p, (permsLex (List.range
          (longerOf (tokenize_name ['a', 'b'] 2) (tokenize_name ['b', 'a'] 2)).length)).find?
        (fun q => permScore (alignD (tokenize_name ['a', 'b'] 2) (tokenize_name ['b', 'a'] 2))
            (min (tokenize_name ['a', 'b'] 2).length (tokenize_name ['b', 'a'] 2).length) q
          == (nmatchPair false (buildTokenMap [] []) 2 ['a', 'b'] ['b', 'a']).dist_total)
        = some p ∧
      (alignBest (tokenize_name ['a', 'b'] 2) (tokenize_name ['b', 'a'] 2)).2
        = permPairs (alignD (tokenize_name ['a', 'b'] 2) (tokenize_name ['b', 'a'] 2))
            (alignPr (tokenize_name ['a', 'b'] 2) (tokenize_name ['b', 'a'] 2))
            (min (tokenize_name ['a', 'b'] 2).length (tokenize_name ['b', 'a'] 2).length) p ∧
      (nmatchPair false (buildTokenMap [] []) 2 ['a', 'b'] ['b', 'a']).n_match
        = (permPairs (alignD (tokenize_name ['a', 'b'] 2) (tokenize_name ['b', 'a'] 2))
            (alignPr (tokenize_name ['a', 'b'] 2) (tokenize_name ['b', 'a'] 2))
            (min (tokenize_name ['a', 'b'] 2).length (tokenize_name ['b', 'a'] 2).length) p).countP
            (fun t => match_eval_token_cpp t.1.length t.2.1.length t.2.2) :=
  claim_C9 false (buildTokenMap [] []) 2 ['a', 'b'] ['b', 'a']
    (by decide) (by decide) (by decide)

/-- Claim C5: with a frequency table in use, slot `idx` of the record, for
`idx` below `min 3 m` (`m` the number of aligned pairs), is the sum of the
two aligned tokens' table frequencies when both are present and the
missing marker (`none`, R's `NA`, never 0) when either is absent; every
slot at or beyond the number of aligned pairs is the missing marker. -/
theorem claim_C5 (tm : List Char → Option Int) (nm : Nat) (x y : List Char)
    (hx : tokenize_name x nm ≠ []) (hy : tokenize_name y nm ≠ [])
    (hmin : (alignBest (tokenize_name x nm) (tokenize_name y nm)).1 < INT_MAX) :
    (∀ idx : Nat,
      idx < min 3 (min (tokenize_name x nm).length (tokenize_name y nm).length) →
      recFreq (nmatchPair true tm nm x y) idx =
        match tm (((alignBest (tokenize_name x nm) (tokenize_name y nm)).2.getD idx
                ([], [], 0)).1),
              tm (((alignBest (tokenize_name x nm) (tokenize_name y nm)).2.getD idx
                ([], [], 0)).2.1) with
        | some a, some b => some (a + b)
        | _, _ => none) ∧
    (∀ idx : Nat, idx < 3 →
      min (tokenize_name x nm).length (tokenize_name y nm).length ≤ idx →
      recFreq (nmatchPair true tm nm x y) idx = none) := by
  have hlen := alignBest_snd_length (tokenize_name x nm) (tokenize_name y nm) hmin
  have hm1 : 1 ≤ min (tokenize_name x nm).length (tokenize_name y nm).length := by
    have h1 : 0 < (tokenize_name x nm).length := List.length_pos.mpr hx
    have h2 : 0 < (tokenize_name y nm).length := List.length_pos.mpr hy
    omega
  have hne : (alignBest (tokenize_name x nm) (tokenize_name y nm)).2 ≠ [] := by
    intro hemp
    rw [hemp] at hlen
    simp at hlen
    omega
  have hcond : (true && !(alignBest (tokenize_name x nm) (tokenize_name y nm)).2.isEmpty)
      = true := by
    simp [List.isEmpty_iff, hne]
  have hfreq : ∀ idx : Nat, idx < 3 →
      recFreq (nmatchPair true tm nm x y) idx
        = computeFreqs true tm (alignBest (tokenize_name x nm) (tokenize_name y nm)).2 idx := by
    intro idx hidx
    rw [nmatchPair_nonempty true tm nm x y hx hy]
    interval_cases idx
    · rfl
    · rfl
    · rfl
  constructor
  · intro idx hidx
    have h3 : idx < 3 := by omega
    rw [hfreq idx h3]
    unfold computeFreqs
    rw [if_pos hcond, if_pos]
    rw [hlen]
    exact hidx
  · intro idx h3 hge
    rw [hfreq idx h3]
    unfold computeFreqs
    rw [if_pos hcond, if_neg]
    rw [hlen]
    omega

/-- Claim C5 witness: with vocabulary john ↦ 5, jon ↦ 2, aligning "john"
with "jon" puts combined frequency 7 in the first slot. -/
theorem claim_C5_witness :
    recFreq (nmatchPair true
      (buildTokenMap [['j', 'o', 'h', 'n'], ['j', 'o', 'n']] [5, 2]) 2
      ['j', 'o', 'h', 'n'] ['j', 'o', 'n']) 0 = some 7 := by
  have h := (claim_C5 (buildTokenMap [['j', 'o', 'h', 'n'], ['j', 'o', 'n']] [5, 2]) 2
    ['j', 'o', 'h', 'n'] ['j', 'o', 'n'] (by decide) (by decide) (by decide)).1 0 (by decide)
  rw [h]
  decide
